import Mathlib

/-!
Verification development for the purchase_planner repository.

The repository's visible JavaScript (production_plan.js and the unnamed form
script) is UI plumbing around a backend Material Requirement & Reorder
Simulation Engine (`calculate_material_requirements`), whose source is not
part of the visible tree.  The engine is therefore modelled here from the
specification (each such definition says so in its doc comment), while the
UI table-population logic is translated directly from production_plan.js.

Quantities are modelled as rationals (the source uses floating point; the
spec treats quantities as exact numbers compared with a configurable
epsilon, which appears below as an explicit parameter).  Dates are modelled
as integers (day numbers), so that `d_place = d_need - lead_time` can fall
before the start of the horizon, as the spec's late-order rule requires.
-/

namespace PurchasePlanner

/-- Association-map lookup over `(code, quantity)` pairs: the quantity
recorded for `k`, or `0` when `k` is absent (the spec: materials absent
from the snapshot start at 0). -/
def qlookup : List (String × ℚ) → String → ℚ
  | [], _ => 0
  | p :: rest, k => if p.1 = k then p.2 else qlookup rest k

/-- Add `q` to the quantity recorded for `k`, inserting the key if absent. -/
def addQty : List (String × ℚ) → String → ℚ → List (String × ℚ)
  | [], k, q => [(k, q)]
  | p :: rest, k, q => if p.1 = k then (p.1, p.2 + q) :: rest else p :: addQty rest k q

/-- Total of the quantities recorded for `m` across all pairs of the list
(not just the first, so it is meaningful on lists with repeated keys). -/
def pairSum : List (String × ℚ) → String → ℚ
  | [], _ => 0
  | p :: rest, m => (if p.1 = m then p.2 else 0) + pairSum rest m

/-- Keys never recorded in `l` stay absent under `addQty` for another key. -/
def keyAbsent (k : String) (l : List (String × ℚ)) : Prop :=
  ∀ p ∈ l, p.1 ≠ k

/-- Each key occurs at most once. -/
def noDupKeys : List (String × ℚ) → Prop
  | [] => True
  | p :: rest => keyAbsent p.1 rest ∧ noDupKeys rest

/-! ## Data model (spec section 3) -/

/-- Modelled from the spec: the Material master record (section 3) with the
fields the simulation consumes: unique code, display name, procurement
lead time in days, safety stock and minimum reorder lot size. -/
structure Material where
  material_code : String
  material_name : String
  lead_time : Nat
  safety_stock : ℚ
  reorder_quantity : ℚ
deriving DecidableEq, Repr

/-- Modelled from the spec: a Formulation (section 3): reference batch
size, the ordered ratio table of `(material_code, quantity_per_reference
_batch)` pairs, and an optional `(packaging_code, packaging_amount_used)`
pair scaled the same way. -/
structure Formulation where
  formulation_id : String
  reference_batch_size : ℚ
  ratios : List (String × ℚ)
  packaging : Option (String × ℚ)
deriving DecidableEq, Repr

/-- Modelled from the spec: a scheduled Batch (section 3): a demand event
consuming its formulation scaled to `batch_size` on its date. -/
structure Batch where
  date : Int
  reactor : String
  formulation : String
  batch_size : ℚ
  processing_time : ℚ
  remark : String
  marketing_person : String
deriving DecidableEq, Repr

/-- Modelled from the spec: the error taxonomy of section 7 for runs that
abort (policy conditions such as shortfalls are results, never errors). -/
inductive PlanError where
  | invalidFormulation (id : String)
  | unknownMaterial (code : String)
deriving DecidableEq, Repr

/-- The full material list of a formulation: the ratio table followed by
the packaging pair when present (the spec scales packaging the same way,
with `packaging_amount_used` as its reference-batch quantity). -/
def Formulation.items (f : Formulation) : List (String × ℚ) :=
  f.ratios ++ (match f.packaging with | some p => [p] | none => [])

/-- `true` when some master record carries the given code. -/
def knownCode (materials : List Material) (c : String) : Bool :=
  materials.any (fun m => decide (m.material_code = c))

/-! ## Formulation Scaler (spec section 4.1) -/

/-- Modelled from the spec: `scale(formulation, batch_size)` (section 4.1).
Fails with `InvalidFormulation` when the reference batch size is not
positive, with `UnknownMaterial` when a listed code has no master record,
and otherwise multiplies every listed quantity by
`batch_size / reference_batch_size`. -/
def scale (materials : List Material) (f : Formulation) (batch_size : ℚ) :
    Except PlanError (List (String × ℚ)) :=
  if f.reference_batch_size ≤ 0 then .error (.invalidFormulation f.formulation_id)
  else
    match (Formulation.items f).find? (fun p => !knownCode materials p.1) with
    | some p => .error (.unknownMaterial p.1)
    | none =>
        .ok ((Formulation.items f).map
          (fun p => (p.1, p.2 * (batch_size / f.reference_batch_size))))

/-! ## Daily Requirement Aggregator (spec section 4.2) -/

/-- Modelled from the spec: insert one scaled quantity into the per-date,
per-material table, keeping dates strictly ascending and accumulating
additively when the `(date, material)` cell already exists. -/
def addDayQty : List (Int × List (String × ℚ)) → Int → String → ℚ →
    List (Int × List (String × ℚ))
  | [], d, k, q => [(d, [(k, q)])]
  | r :: rest, d, k, q =>
      if d = r.1 then (r.1, addQty r.2 k q) :: rest
      else if d < r.1 then (d, [(k, q)]) :: r :: rest
      else r :: addDayQty rest d k q

/-- Modelled from the spec: fold every `(date, scaled usage)` item of the
scaled batch list into the aggregated daily requirement table. -/
def aggregateScaled (items : List (Int × List (String × ℚ))) :
    List (Int × List (String × ℚ)) :=
  items.foldl (fun tbl it => it.2.foldl (fun t p => addDayQty t it.1 p.1 p.2) tbl) []

/-- Quantity the table records for material `m` on date `d` (0 if none). -/
def tableLookup : List (Int × List (String × ℚ)) → Int → String → ℚ
  | [], _, _ => 0
  | r :: rest, d, m => if r.1 = d then qlookup r.2 m else tableLookup rest d m

/-- `x` is strictly below every date of the table. -/
def tableLB (x : Int) : List (Int × List (String × ℚ)) → Prop
  | [] => True
  | r :: rest => x < r.1 ∧ tableLB x rest

/-- Dates strictly ascending, hence no two rows share a date. -/
def datesSorted : List (Int × List (String × ℚ)) → Prop
  | [] => True
  | r :: rest => tableLB r.1 rest ∧ datesSorted rest

/-- Every per-date usage list has each material at most once. -/
def tableKeysOk (tbl : List (Int × List (String × ℚ))) : Prop :=
  ∀ r ∈ tbl, noDupKeys r.2

/-- A well-formed aggregated table: one row per date and, inside each row,
one cell per material. -/
def tableWF (tbl : List (Int × List (String × ℚ))) : Prop :=
  datesSorted tbl ∧ tableKeysOk tbl

/-! ## Stock Projection & Reorder Planner (spec section 4.3) -/

/-- Modelled from the spec: a ReorderEvent (section 3): placement date,
material, ordered quantity, and the derived arrival date
(`date + lead_time`, the shortfall date it targets).  The justification
fields recorded for the human-readable reason are kept structured:
the projected balance at the need date, the deficit
(`safety_stock - projected_balance`), the policy values, and the
late-order flag (`d_place` before the detection date). -/
structure ReorderEvent where
  date : Int
  material_code : String
  qty : ℚ
  arrival_date : Int
  projected_balance : ℚ
  deficit : ℚ
  safety_stock : ℚ
  lead_time : Nat
  reorder_quantity : ℚ
  late : Bool
deriving DecidableEq, Repr

/-- Modelled from the spec: the engine-internal SimulationState
(section 3): running balances per material, pending arrivals keyed by
arrival date, and the reorder event log accumulated so far. -/
structure SimState where
  balances : List (String × ℚ)
  pending : List (Int × String × ℚ)
  events : List ReorderEvent
deriving DecidableEq, Repr

/-- Sum of the pending arrival quantities for material `m`. -/
def arrSum : List (Int × String × ℚ) → String → ℚ
  | [], _ => 0
  | p :: rest, m => (if p.2.1 = m then p.2.2 else 0) + arrSum rest m

/-- Pending arrival quantity for material `m` scheduled exactly on `d`. -/
def arrivalsAt (pending : List (Int × String × ℚ)) (m : String) (d : Int) : ℚ :=
  arrSum (pending.filter (fun p => decide (p.1 = d))) m

/-- Modelled from the spec: step 1 of the daily loop — apply the arrivals
scheduled for `d` to the running balances and drop them from the pending
queue. -/
def applyArrivals (d : Int) (st : SimState) : SimState :=
  { balances :=
      (st.pending.filter (fun p => decide (p.1 = d))).foldl
        (fun b p => addQty b p.2.1 p.2.2) st.balances
    pending := st.pending.filter (fun p => !decide (p.1 = d))
    events := st.events }

/-- Modelled from the spec: step 3's lookahead — walk the future
requirement dates in ascending order, carrying the projected balance
(current balance plus scheduled arrivals minus upcoming usage, no further
reorders), and return the first date where it falls below
`safety - eps` together with the projected balance there. -/
def findShortfall (eps safety : ℚ) (pending : List (Int × String × ℚ)) (m : String) :
    ℚ → List (Int × List (String × ℚ)) → Option (Int × ℚ)
  | _, [] => none
  | bal, r :: rest =>
      if bal + arrivalsAt pending m r.1 - qlookup r.2 m < safety - eps then
        some (r.1, bal + arrivalsAt pending m r.1 - qlookup r.2 m)
      else findShortfall eps safety pending m (bal + arrivalsAt pending m r.1 - qlookup r.2 m) rest

/-- `true` when a placed-but-not-yet-arrived reorder exists for `m`. -/
def hasPending (pending : List (Int × String × ℚ)) (m : String) : Bool :=
  pending.any (fun p => decide (p.2.1 = m))

/-- Modelled from the spec: steps 4-7 for a single material — skip the
material while a reorder for it is still pending (at most one open
reorder per episode); otherwise, when the lookahead finds a shortfall at
`d_need`, order `max(reorder_quantity, deficit)` with
`deficit = safety_stock - projected_balance`, dated
`d_place = d_need - lead_time` (flagged late when `d_place` precedes the
detection date `d`), and schedule its arrival on `d_need`. -/
def orderForMaterial (eps : ℚ) (d : Int) (future : List (Int × List (String × ℚ)))
    (st : SimState) (m : Material) : SimState :=
  if hasPending st.pending m.material_code then st
  else
    match findShortfall eps m.safety_stock st.pending m.material_code
        (qlookup st.balances m.material_code) future with
    | none => st
    | some s =>
        let deficit := m.safety_stock - s.2
        let qty := max m.reorder_quantity deficit
        let dplace := s.1 - (m.lead_time : Int)
        let ev : ReorderEvent :=
          ⟨dplace, m.material_code, qty, s.1, s.2, deficit, m.safety_stock,
            m.lead_time, m.reorder_quantity, decide (dplace < d)⟩
        { balances := st.balances
          pending := st.pending ++ [(s.1, m.material_code, qty)]
          events := st.events ++ [ev] }

/-- Modelled from the spec: steps 1-2 of one simulated day — apply the
arrivals scheduled for `d`, then subtract the day's requirements from the
running balances (negative balances are allowed). -/
def dayState (st : SimState) (d : Int) (us : List (String × ℚ)) : SimState :=
  { balances := us.foldl (fun b p => addQty b p.1 (-p.2)) (applyArrivals d st).balances
    pending := (applyArrivals d st).pending
    events := (applyArrivals d st).events }

/-- Modelled from the spec: one simulated day — apply arrivals, subtract
the day's requirements from the running balances, then run the lookahead
over every material in master order. -/
def stepDay (materials : List Material) (eps : ℚ) (st : SimState) (d : Int)
    (us : List (String × ℚ)) (future : List (Int × List (String × ℚ))) : SimState :=
  materials.foldl (orderForMaterial eps d future) (dayState st d us)

/-- Modelled from the spec: the day-by-day fold over the ascending date
sequence (every scheduled arrival date is a requirement date, so the
requirement dates are the whole iteration set). -/
def runDates (materials : List Material) (eps : ℚ) :
    SimState → List (Int × List (String × ℚ)) → SimState
  | st, [] => st
  | st, r :: rest => runDates materials eps (stepDay materials eps st r.1 r.2 rest) rest

/-! ## The full plan pipeline (spec sections 4.2-4.4, 6, 7) -/

/-- Modelled from the spec: scale every batch through its formulation,
aborting on the first structural error (missing or invalid formulation,
unknown material). -/
def scaledBatches (materials : List Material) (formulations : List Formulation) :
    List Batch → Except PlanError (List (Int × List (String × ℚ)))
  | [] => .ok []
  | b :: rest =>
      match formulations.find? (fun f => decide (f.formulation_id = b.formulation)) with
      | none => .error (.invalidFormulation b.formulation)
      | some f =>
          match scale materials f b.batch_size with
          | .error e => .error e
          | .ok us =>
              match scaledBatches materials formulations rest with
              | .error e => .error e
              | .ok l => .ok ((b.date, us) :: l)

/-- Modelled from the spec: validation that every material code of the
stock snapshot has a master record, else `UnknownMaterial` aborts the
run. -/
def checkStock (materials : List Material) (stock : List (String × ℚ)) :
    Except PlanError Unit :=
  match stock.find? (fun p => !knownCode materials p.1) with
  | some p => .error (.unknownMaterial p.1)
  | none => .ok ()

/-- Modelled from the spec: the three durable outputs of a run — the
aggregated daily requirement table, the ordered reorder event log, and
the final running balances. -/
structure PlanOutput where
  material_requirements : List (Int × List (String × ℚ))
  events : List ReorderEvent
  final_balances : List (String × ℚ)
deriving DecidableEq, Repr

/-- Modelled from the spec: `plan(initial_stock, batches, materials,
formulations)` — validate the stock snapshot, scale and aggregate the
batches, then run the day-by-day projection starting from the snapshot
date `start` (a leading day with no usage, from which the whole horizon
is visible to the lookahead).  Structural errors abort the run with no
partial results; shortfalls never do. -/
def plan (materials : List Material) (formulations : List Formulation)
    (stock : List (String × ℚ)) (batches : List Batch) (start : Int) (eps : ℚ) :
    Except PlanError PlanOutput :=
  match checkStock materials stock with
  | .error e => .error e
  | .ok _ =>
      match scaledBatches materials formulations batches with
      | .error e => .error e
      | .ok items =>
          let reqs := aggregateScaled items
          let final := runDates materials eps ⟨stock, [], []⟩ ((start, []) :: reqs)
          .ok ⟨reqs, final.events, final.balances⟩

/-- Usage the table charges to material `m` on date `d`, counting every
item (used to state additivity of the aggregation). -/
def totalAt : List (Int × List (String × ℚ)) → Int → String → ℚ
  | [], _, _ => 0
  | it :: rest, d, m => (if it.1 = d then pairSum it.2 m else 0) + totalAt rest d m

/-- Total usage of material `m` across the whole requirement table. -/
def totalUsage : List (Int × List (String × ℚ)) → String → ℚ
  | [], _ => 0
  | r :: rest, m => pairSum r.2 m + totalUsage rest m

/-- No pending arrival belongs to material `m`. -/
def pendingFree (pending : List (Int × String × ℚ)) (m : String) : Prop :=
  ∀ p ∈ pending, p.2.1 ≠ m

/-- The material codes of the pending-arrival queue, in order. -/
def pendingCodes (pending : List (Int × String × ℚ)) : List String :=
  pending.map (fun p => p.2.1)

/-- The record every emitted reorder event must satisfy: it belongs to a
master material, carries that material's policy values, its deficit is
`safety_stock - projected_balance` with the projected balance strictly
below `safety_stock - eps`, its quantity is
`max(reorder_quantity, deficit)`, and its arrival date is its placement
date plus the material's lead time. -/
def eventOk (materials : List Material) (eps : ℚ) (ev : ReorderEvent) : Prop :=
  ∃ m ∈ materials, ev.material_code = m.material_code ∧
    ev.safety_stock = m.safety_stock ∧
    ev.lead_time = m.lead_time ∧
    ev.reorder_quantity = m.reorder_quantity ∧
    ev.deficit = ev.safety_stock - ev.projected_balance ∧
    ev.qty = max ev.reorder_quantity ev.deficit ∧
    ev.projected_balance < ev.safety_stock - eps ∧
    ev.arrival_date = ev.date + (ev.lead_time : Int)

/-- The pending-arrival entry `orderForMaterial` schedules for a shortfall
of material `m` at `dneed` with projected balance `projBal`. -/
def mkOrderPending (m : Material) (dneed : Int) (projBal : ℚ) : Int × String × ℚ :=
  (dneed, m.material_code, max m.reorder_quantity (m.safety_stock - projBal))

/-- The reorder event `orderForMaterial` records for that shortfall when
detected on date `d`. -/
def mkOrderEvent (m : Material) (d dneed : Int) (projBal : ℚ) : ReorderEvent :=
  ⟨dneed - (m.lead_time : Int), m.material_code,
    max m.reorder_quantity (m.safety_stock - projBal), dneed, projBal,
    m.safety_stock - projBal, m.safety_stock, m.lead_time, m.reorder_quantity,
    decide (dneed - (m.lead_time : Int) < d)⟩

/-! ## UI table population (translated from production_plan.js) -/

/-- One element of a `reorders_placed` / `reorders_arrived` /
`production_completed` array of the engine's `reorders` response
(production_plan.js sample payloads). -/
structure UIReorderItem where
  materialCode : String
  materialName : String
  qty : ℚ
  reason : String
deriving DecidableEq, Repr

/-- One date entry of the engine's `reorders` response
(production_plan.js lines 471-785). -/
structure UIDateReorders where
  date : String
  reorders_placed : List UIReorderItem
  reorders_arrived : List UIReorderItem
  production_completed : List UIReorderItem
deriving DecidableEq, Repr

/-- One row of the `purchase_actions` child table; fields the UI never
assigns stay `none` (an unset Frappe child-table field). -/
structure PurchaseActionRow where
  date : String
  material_code : Option String
  quantity : Option ℚ
  reason : Option String
deriving DecidableEq, Repr

/-- The row `populate_tables` adds per date entry before the placed loop:
only `row.date` is assigned (production_plan.js lines 787-788). -/
def dateOnlyRow (d : String) : PurchaseActionRow := ⟨d, none, none, none⟩

/-- The row added per `reorders_placed` element: date, material code,
quantity and reason (production_plan.js lines 789-795). -/
def placedRow (d : String) (it : UIReorderItem) : PurchaseActionRow :=
  ⟨d, some it.materialCode, some it.qty, some it.reason⟩

/-- Translation of the `purchase_actions` loop of `populate_tables`
(production_plan.js lines 786-796): for each date entry of the `reorders`
response, append a date-only row and then one row per `reorders_placed`
element; `reorders_arrived` and `production_completed` are not read. -/
def populatePurchaseActions (reorders : List UIDateReorders) : List PurchaseActionRow :=
  reorders.foldl
    (fun rows r => (rows ++ [dateOnlyRow r.date]) ++ r.reorders_placed.map (placedRow r.date))
    []

/-- The row sequence the claim describes: per date entry one date-only
row followed by one row per placed reorder, nothing else. -/
def purchaseRowsSpec : List UIDateReorders → List PurchaseActionRow
  | [] => []
  | r :: rest =>
      (dateOnlyRow r.date :: r.reorders_placed.map (placedRow r.date)) ++ purchaseRowsSpec rest

/-- A date entry with the fields the claim says are never inserted
emptied out. -/
def dropUnusedArrays (r : UIDateReorders) : UIDateReorders :=
  ⟨r.date, r.reorders_placed, [], []⟩

/-! ## Concrete fixtures (the spec's section 8 scenario) -/

/-- The spec's scenario material M: safety_stock 500, reorder_quantity
440, lead_time 10. -/
def matM : Material := ⟨"M", "Material M", 10, 500, 440⟩

/-- A formulation consuming 780 units of M per reference batch of 1000. -/
def formF : Formulation := ⟨"F1", 1000, [("M", 780)], none⟩

/-- A single batch of size 1000 on day 21. -/
def batchB : Batch := ⟨21, "R1", "F1", 1000, 5, "", "planner"⟩

/-- The reorder event the spec's scenario expects: 440 units placed on
day 11 (= 21 - 10), arriving day 21, against a projected balance of 220
(deficit 280) on day 21. -/
def eventM : ReorderEvent := ⟨11, "M", 440, 21, 220, 280, 500, 10, 440, false⟩

/-- The full expected output of the scenario run. -/
def scenarioOut : PlanOutput :=
  ⟨[(21, [("M", 780)])], [eventM], [("M", 660)]⟩

/-- The spec's second scenario formulation: only 50 units of M per
reference batch of 1000, so no shortfall from a stock of 1000. -/
def formF2 : Formulation := ⟨"F2", 1000, [("M", 50)], none⟩

/-- A single batch of size 1000 on day 21 using `formF2`. -/
def batchB2 : Batch := ⟨21, "R1", "F2", 1000, 5, "", "planner"⟩

/-- The expected output of the second scenario: zero reorder events and a
final balance of 950 = 1000 - 50. -/
def scenario2Out : PlanOutput :=
  ⟨[(21, [("M", 50)])], [], [("M", 950)]⟩

/-! ## Theorems -/

theorem qlookup_addQty (l : List (String × ℚ)) (k : String) (q : ℚ) (m : String) :
    qlookup (addQty l k q) m = qlookup l m + (if k = m then q else 0) := by
  induction l with
  | nil =>
    by_cases h : k = m <;> simp [addQty, qlookup, h]
  | cons p rest ih =>
    by_cases hpk : p.1 = k
    · by_cases hpm : p.1 = m
      · have hkm : k = m := hpk ▸ hpm
        simp only [addQty, if_pos hpk, qlookup, if_pos hpm, if_pos hkm]
      · have hkm : ¬ k = m := fun h => hpm (hpk.trans h)
        simp only [addQty, if_pos hpk, qlookup, if_neg hpm, if_neg hkm, add_zero]
    · by_cases hpm : p.1 = m
      · have hkm : ¬ k = m := fun h => hpk (hpm.trans h.symm)
        simp only [addQty, if_neg hpk, qlookup, if_pos hpm, if_neg hkm, add_zero]
      · simp only [addQty, if_neg hpk, qlookup, if_neg hpm, ih]

theorem keyAbsent_addQty (j k : String) (q : ℚ) (l : List (String × ℚ))
    (hj : keyAbsent j l) (hk : k ≠ j) : keyAbsent j (addQty l k q) := by
  induction l with
  | nil =>
    intro p hp
    simp only [addQty, List.mem_singleton] at hp
    subst hp
    exact hk
  | cons p rest ih =>
    have hj0 : p.1 ≠ j := hj p (List.mem_cons_self _ _)
    have hj' : keyAbsent j rest := fun r hr => hj r (List.mem_cons_of_mem _ hr)
    by_cases hpk : p.1 = k
    · intro r hr
      simp only [addQty, if_pos hpk] at hr
      rcases List.mem_cons.mp hr with h | h
      · subst h; exact hj0
      · exact hj' r h
    · intro r hr
      simp only [addQty, if_neg hpk] at hr
      rcases List.mem_cons.mp hr with h | h
      · subst h; exact hj0
      · exact ih hj' r h

theorem noDupKeys_addQty (l : List (String × ℚ)) (k : String) (q : ℚ)
    (h : noDupKeys l) : noDupKeys (addQty l k q) := by
  induction l with
  | nil =>
    simp [addQty, noDupKeys, keyAbsent]
  | cons p rest ih =>
    obtain ⟨habs, hnd⟩ := h
    by_cases hpk : p.1 = k
    · have he : addQty (p :: rest) k q = (p.1, p.2 + q) :: rest := by
        simp [addQty, hpk]
      rw [he]
      exact ⟨habs, hnd⟩
    · have he : addQty (p :: rest) k q = p :: addQty rest k q := by
        simp [addQty, hpk]
      rw [he]
      exact ⟨keyAbsent_addQty p.1 k q rest habs (fun hh => hpk hh.symm), ih hnd⟩

theorem qlookup_map_mul (l : List (String × ℚ)) (c : ℚ) (m : String) :
    qlookup (l.map (fun p => (p.1, p.2 * c))) m = qlookup l m * c := by
  induction l with
  | nil => simp [qlookup]
  | cons p rest ih =>
    by_cases h : p.1 = m <;> simp [qlookup, h, ih]

theorem pairSum_map_mul (l : List (String × ℚ)) (c : ℚ) (m : String) :
    pairSum (l.map (fun p => (p.1, p.2 * c))) m = pairSum l m * c := by
  induction l with
  | nil => simp [pairSum]
  | cons p rest ih =>
    by_cases h : p.1 = m <;> simp [pairSum, h, ih] <;> ring

theorem map_mul_one (l : List (String × ℚ)) :
    l.map (fun p => (p.1, p.2 * 1)) = l := by
  induction l with
  | nil => rfl
  | cons p rest ih => simp [ih]

theorem bool_ne_true {b : Bool} (h : b = false) : ¬ b = true := by simp [h]

theorem find?_mem_true {α : Type} (pred : α → Bool) (l : List α) (x : α)
    (hx : x ∈ l) (hpx : pred x = true) :
    ∃ y, l.find? pred = some y ∧ pred y = true := by
  induction l with
  | nil => cases hx
  | cons a rest ih =>
    cases h : pred a with
    | true => exact ⟨a, List.find?_cons_of_pos _ h, h⟩
    | false =>
      rcases List.mem_cons.mp hx with rfl | hx'
      · rw [h] at hpx; cases hpx
      · obtain ⟨y, hy, hpy⟩ := ih hx'
        refine ⟨y, ?_, hpy⟩
        rw [List.find?_cons_of_neg _ (bool_ne_true h)]
        exact hy

theorem find?_all_false {α : Type} (pred : α → Bool) (l : List α)
    (h : ∀ x ∈ l, pred x = false) : l.find? pred = none := by
  induction l with
  | nil => rfl
  | cons a rest ih =>
    rw [List.find?_cons_of_neg _ (bool_ne_true (h a (List.mem_cons_self _ _)))]
    exact ih (fun x hx => h x (List.mem_cons_of_mem _ hx))

theorem scale_ok (materials : List Material) (f : Formulation) (batch_size : ℚ)
    (href : 0 < f.reference_batch_size)
    (hknown : ∀ p ∈ Formulation.items f, knownCode materials p.1 = true) :
    scale materials f batch_size =
      .ok ((Formulation.items f).map
        (fun p => (p.1, p.2 * (batch_size / f.reference_batch_size)))) := by
  have hnone : (Formulation.items f).find? (fun p => !knownCode materials p.1) = none :=
    find?_all_false _ _ (fun x hx => by rw [hknown x hx]; rfl)
  unfold scale
  rw [if_neg (not_le.mpr href), hnone]

/-- C6: scaling is linear — with a positive reference batch size and all
codes resolving, `scale` succeeds and assigns every material
`ratio[m] * (batch_size / reference_batch_size)` (packaging included in
the item list, scaled the same way); a batch size equal to the reference
batch size returns the item table unchanged; and a non-positive
reference batch size fails with `InvalidFormulation`. -/
theorem claim_C6_scaling_linear (materials : List Material) (f : Formulation)
    (batch_size : ℚ) (href : 0 < f.reference_batch_size)
    (hknown : ∀ p ∈ Formulation.items f, knownCode materials p.1 = true) :
    (∃ l, scale materials f batch_size = .ok l ∧
        ∀ m, qlookup l m =
          qlookup (Formulation.items f) m * (batch_size / f.reference_batch_size)) ∧
    scale materials f f.reference_batch_size = .ok (Formulation.items f) ∧
    (∀ g : Formulation, ∀ bs : ℚ, g.reference_batch_size ≤ 0 →
        scale materials g bs = .error (.invalidFormulation g.formulation_id)) := by
  refine ⟨⟨_, scale_ok materials f batch_size href hknown, ?_⟩, ?_, ?_⟩
  · intro m
    exact qlookup_map_mul _ _ m
  · rw [scale_ok materials f f.reference_batch_size href hknown]
    have hne : f.reference_batch_size ≠ 0 := ne_of_gt href
    simp only [div_self hne]
    rw [map_mul_one]
  · intro g bs hg
    unfold scale
    rw [if_pos hg]

/-- Witness for C6 at the scenario formulation: reference batch size 1000,
one material M known to the master list, scaled to batch size 500. -/
theorem claim_C6_scaling_linear_witness :
    (0 < formF.reference_batch_size ∧
      (∀ p ∈ Formulation.items formF, knownCode [matM] p.1 = true)) ∧
    (∃ l, scale [matM] formF 500 = .ok l ∧
        ∀ m, qlookup l m =
          qlookup (Formulation.items formF) m * (500 / formF.reference_batch_size)) := by
  have href : 0 < formF.reference_batch_size := by norm_num [formF]
  have hknown : ∀ p ∈ Formulation.items formF, knownCode [matM] p.1 = true := by
    intro p hp
    simp only [Formulation.items, formF, List.append_nil, List.mem_singleton] at hp
    subst hp
    simp [knownCode, matM]
  exact ⟨⟨href, hknown⟩, (claim_C6_scaling_linear [matM] formF 500 href hknown).1⟩

/-- C5: structural reference errors abort the whole run with no partial
results, while negative projected balances never do — (1) a stock
snapshot entry whose code has no master record makes `plan` return
`UnknownMaterial`; (2) an item of a used formulation whose code has no
master record makes `scale` return `UnknownMaterial`; (3) any scaling
error propagates so `plan` returns it and nothing else; (4) once the
stock snapshot and the batch scaling validate, `plan` always returns a
result, whatever balances the simulation reaches. -/
theorem claim_C5_unknown_material_aborts :
    (∀ (materials : List Material) (formulations : List Formulation)
        (stock : List (String × ℚ)) (batches : List Batch) (start : Int) (eps : ℚ)
        (p : String × ℚ), p ∈ stock → knownCode materials p.1 = false →
        ∃ c, knownCode materials c = false ∧
          plan materials formulations stock batches start eps =
            .error (.unknownMaterial c)) ∧
    (∀ (materials : List Material) (f : Formulation) (batch_size : ℚ)
        (p : String × ℚ), 0 < f.reference_batch_size → p ∈ Formulation.items f →
        knownCode materials p.1 = false →
        ∃ c, knownCode materials c = false ∧
          scale materials f batch_size = .error (.unknownMaterial c)) ∧
    (∀ (materials : List Material) (formulations : List Formulation)
        (stock : List (String × ℚ)) (batches : List Batch) (start : Int) (eps : ℚ)
        (e : PlanError), checkStock materials stock = .ok () →
        scaledBatches materials formulations batches = .error e →
        plan materials formulations stock batches start eps = .error e) ∧
    (∀ (materials : List Material) (formulations : List Formulation)
        (stock : List (String × ℚ)) (batches : List Batch) (start : Int) (eps : ℚ)
        (items : List (Int × List (String × ℚ))),
        checkStock materials stock = .ok () →
        scaledBatches materials formulations batches = .ok items →
        ∃ out, plan materials formulations stock batches start eps = .ok out) := by
  refine ⟨?_, ?_, ?_, ?_⟩
  · intro materials formulations stock batches start eps p hp hk
    obtain ⟨y, hfind, hpy⟩ :=
      find?_mem_true (fun r => !knownCode materials r.1) stock p hp
        (by show (!knownCode materials p.1) = true; rw [hk]; rfl)
    have hky : knownCode materials y.1 = false := by
      cases h : knownCode materials y.1
      · rfl
      · rw [h] at hpy; cases hpy
    have hcs : checkStock materials stock = .error (.unknownMaterial y.1) := by
      unfold checkStock
      rw [hfind]
    refine ⟨y.1, hky, ?_⟩
    unfold plan
    rw [hcs]
  · intro materials f batch_size p href hp hk
    obtain ⟨y, hfind, hpy⟩ :=
      find?_mem_true (fun r => !knownCode materials r.1) (Formulation.items f) p hp
        (by show (!knownCode materials p.1) = true; rw [hk]; rfl)
    have hky : knownCode materials y.1 = false := by
      cases h : knownCode materials y.1
      · rfl
      · rw [h] at hpy; cases hpy
    refine ⟨y.1, hky, ?_⟩
    unfold scale
    rw [if_neg (not_le.mpr href), hfind]
  · intro materials formulations stock batches start eps e hcheck hscaled
    unfold plan
    rw [hcheck, hscaled]
  · intro materials formulations stock batches start eps items hcheck hscaled
    have hres : plan materials formulations stock batches start eps =
        .ok ⟨aggregateScaled items,
          (runDates materials eps ⟨stock, [], []⟩
            ((start, []) :: aggregateScaled items)).events,
          (runDates materials eps ⟨stock, [], []⟩
            ((start, []) :: aggregateScaled items)).balances⟩ := by
      unfold plan
      rw [hcheck, hscaled]
    exact ⟨_, hres⟩

/-- Witness for C5: a stock snapshot naming the unknown code X aborts the
scenario run with UnknownMaterial, while the validated scenario inputs
always produce a result. -/
theorem claim_C5_unknown_material_aborts_witness :
    (("X", (5 : ℚ)) ∈ [(("X", (5 : ℚ)))] ∧ knownCode [matM] "X" = false ∧
      (∃ c, knownCode [matM] c = false ∧
        plan [matM] [formF] [("X", 5)] [batchB] 1 0 = .error (.unknownMaterial c))) ∧
    (checkStock [matM] [("M", 1000)] = .ok () ∧
      scaledBatches [matM] [formF] [batchB] = .ok [(21, [("M", 780)])] ∧
      (∃ out, plan [matM] [formF] [("M", 1000)] [batchB] 1 0 = .ok out)) := by
  have hmem : ("X", (5 : ℚ)) ∈ [(("X", (5 : ℚ)))] := List.mem_singleton.mpr rfl
  have hunk : knownCode [matM] "X" = false := by simp [knownCode, matM]
  have hcheck : checkStock [matM] [("M", 1000)] = .ok () := by
    norm_num [checkStock, knownCode, matM]
  have hscaled : scaledBatches [matM] [formF] [batchB] = .ok [(21, [("M", 780)])] := by
    norm_num [scaledBatches, scale, knownCode, Formulation.items, matM, formF, batchB]
  exact ⟨⟨hmem, hunk,
      claim_C5_unknown_material_aborts.1 [matM] [formF] [("X", 5)] [batchB] 1 0 _ hmem hunk⟩,
    ⟨hcheck, hscaled,
      claim_C5_unknown_material_aborts.2.2.2 [matM] [formF] [("M", 1000)] [batchB] 1 0 _
        hcheck hscaled⟩⟩

theorem orderForMaterial_shape (eps : ℚ) (d : Int)
    (future : List (Int × List (String × ℚ))) (st : SimState) (m : Material) :
    orderForMaterial eps d future st m = st ∨
    ∃ dneed projBal,
      hasPending st.pending m.material_code = false ∧
      findShortfall eps m.safety_stock st.pending m.material_code
        (qlookup st.balances m.material_code) future = some (dneed, projBal) ∧
      orderForMaterial eps d future st m =
        { balances := st.balances
          pending := st.pending ++ [mkOrderPending m dneed projBal]
          events := st.events ++ [mkOrderEvent m d dneed projBal] } := by
  by_cases hp : hasPending st.pending m.material_code = true
  · left
    simp [orderForMaterial, hp]
  · have hp' : hasPending st.pending m.material_code = false := by
      cases h : hasPending st.pending m.material_code
      · rfl
      · exact absurd h hp
    cases hf : findShortfall eps m.safety_stock st.pending m.material_code
        (qlookup st.balances m.material_code) future with
    | none =>
        left
        simp [orderForMaterial, hp', hf]
    | some s =>
        right
        refine ⟨s.1, s.2, hp', rfl, ?_⟩
        simp [orderForMaterial, hp', hf, mkOrderPending, mkOrderEvent]

theorem findShortfall_bound (eps safety : ℚ) (pending : List (Int × String × ℚ))
    (m : String) (bal : ℚ) (future : List (Int × List (String × ℚ)))
    (dneed : Int) (projBal : ℚ)
    (h : findShortfall eps safety pending m bal future = some (dneed, projBal)) :
    projBal < safety - eps := by
  induction future generalizing bal with
  | nil => cases h
  | cons r rest ih =>
    by_cases hlt : bal + arrivalsAt pending m r.1 - qlookup r.2 m < safety - eps
    · rw [findShortfall, if_pos hlt] at h
      simp only [Option.some.injEq, Prod.mk.injEq] at h
      rw [← h.2]
      exact hlt
    · rw [findShortfall, if_neg hlt] at h
      exact ih _ h

theorem orderForMaterial_events_grow (eps : ℚ) (d : Int) (future) (st : SimState)
    (m : Material) :
    ∃ t, (orderForMaterial eps d future st m).events = st.events ++ t := by
  rcases orderForMaterial_shape eps d future st m with h | ⟨dneed, projBal, _, _, h⟩
  · exact ⟨[], by rw [h, List.append_nil]⟩
  · exact ⟨_, by rw [h]⟩

theorem foldl_order_events_grow (ms : List Material) (eps : ℚ) (d : Int) (future)
    (st : SimState) :
    ∃ t, (ms.foldl (orderForMaterial eps d future) st).events = st.events ++ t := by
  induction ms generalizing st with
  | nil => exact ⟨[], (List.append_nil _).symm⟩
  | cons m rest ih =>
    obtain ⟨t1, h1⟩ := orderForMaterial_events_grow eps d future st m
    obtain ⟨t2, h2⟩ := ih (orderForMaterial eps d future st m)
    exact ⟨t1 ++ t2, by rw [List.foldl_cons, h2, h1, List.append_assoc]⟩

theorem stepDay_events_grow (ms : List Material) (eps : ℚ) (st : SimState) (d : Int)
    (us : List (String × ℚ)) (future) :
    ∃ t, (stepDay ms eps st d us future).events = st.events ++ t :=
  foldl_order_events_grow ms eps d future (dayState st d us)

theorem runDates_events_grow (ms : List Material) (eps : ℚ) (st : SimState)
    (reqs : List (Int × List (String × ℚ))) :
    ∃ t, (runDates ms eps st reqs).events = st.events ++ t := by
  induction reqs generalizing st with
  | nil => exact ⟨[], (List.append_nil _).symm⟩
  | cons r rest ih =>
    obtain ⟨t1, h1⟩ := stepDay_events_grow ms eps st r.1 r.2 rest
    obtain ⟨t2, h2⟩ := ih (stepDay ms eps st r.1 r.2 rest)
    refine ⟨t1 ++ t2, ?_⟩
    rw [runDates, h2, h1, List.append_assoc]

theorem orderForMaterial_events_ok (ms : List Material) (eps : ℚ) (d : Int) (future)
    (st : SimState) (m : Material) (hm : m ∈ ms) :
    ∀ ev ∈ (orderForMaterial eps d future st m).events,
      ev ∈ st.events ∨ eventOk ms eps ev := by
  rcases orderForMaterial_shape eps d future st m with h | ⟨dneed, projBal, hp, hf, h⟩
  · intro ev hev; rw [h] at hev; exact Or.inl hev
  · intro ev hev
    rw [h] at hev
    rcases List.mem_append.mp hev with h1 | h1
    · exact Or.inl h1
    · right
      rw [List.mem_singleton] at h1
      subst h1
      refine ⟨m, hm, rfl, rfl, rfl, rfl, rfl, rfl, ?_, ?_⟩
      · exact findShortfall_bound eps m.safety_stock st.pending m.material_code _
          future dneed projBal hf
      · show dneed = dneed - (m.lead_time : Int) + (m.lead_time : Int)
        omega

theorem foldl_order_events_ok (ms' ms : List Material) (eps : ℚ) (d : Int) (future)
    (st : SimState) (hsub : ∀ m ∈ ms', m ∈ ms) :
    ∀ ev ∈ (ms'.foldl (orderForMaterial eps d future) st).events,
      ev ∈ st.events ∨ eventOk ms eps ev := by
  induction ms' generalizing st with
  | nil => intro ev hev; exact Or.inl hev
  | cons m rest ih =>
    intro ev hev
    rw [List.foldl_cons] at hev
    rcases ih (orderForMaterial eps d future st m)
        (fun x hx => hsub x (List.mem_cons_of_mem _ hx)) ev hev with h1 | h1
    · exact orderForMaterial_events_ok ms eps d future st m
        (hsub m (List.mem_cons_self _ _)) ev h1
    · exact Or.inr h1

theorem stepDay_events_ok (ms : List Material) (eps : ℚ) (st : SimState) (d : Int)
    (us) (future) :
    ∀ ev ∈ (stepDay ms eps st d us future).events,
      ev ∈ st.events ∨ eventOk ms eps ev :=
  foldl_order_events_ok ms ms eps d future (dayState st d us) (fun _ h => h)

theorem runDates_events_ok (ms : List Material) (eps : ℚ) (st : SimState)
    (reqs : List (Int × List (String × ℚ))) :
    ∀ ev ∈ (runDates ms eps st reqs).events, ev ∈ st.events ∨ eventOk ms eps ev := by
  induction reqs generalizing st with
  | nil => intro ev hev; exact Or.inl hev
  | cons r rest ih =>
    intro ev hev
    rw [runDates] at hev
    rcases ih (stepDay ms eps st r.1 r.2 rest) ev hev with h1 | h1
    · exact stepDay_events_ok ms eps st r.1 r.2 rest ev h1
    · exact Or.inr h1

theorem plan_events_ok (materials : List Material) (formulations : List Formulation)
    (stock : List (String × ℚ)) (batches : List Batch) (start : Int) (eps : ℚ)
    (out : PlanOutput)
    (h : plan materials formulations stock batches start eps = .ok out) :
    ∀ ev ∈ out.events, eventOk materials eps ev := by
  unfold plan at h
  cases hc : checkStock materials stock with
  | error e => rw [hc] at h; cases h
  | ok u =>
    cases u
    rw [hc] at h
    cases hs : scaledBatches materials formulations batches with
    | error e => rw [hs] at h; cases h
    | ok items =>
      rw [hs] at h
      injection h with h
      subst h
      intro ev hev
      rcases runDates_events_ok materials eps ⟨stock, [], []⟩
          ((start, []) :: aggregateScaled items) ev hev with h1 | h1
      · cases h1
      · exact h1

/-- C1: every emitted reorder event is sized by the policy — it belongs to
a master material, its deficit is that material's safety stock minus the
projected balance at the need date, its quantity is
`max(reorder_quantity, deficit)`, and hence is at least the material's
`reorder_quantity` and at least the deficit. -/
theorem claim_C1_order_sizing (materials : List Material)
    (formulations : List Formulation) (stock : List (String × ℚ))
    (batches : List Batch) (start : Int) (eps : ℚ) (out : PlanOutput)
    (h : plan materials formulations stock batches start eps = .ok out) :
    ∀ ev ∈ out.events, ∃ m ∈ materials,
      ev.material_code = m.material_code ∧
      ev.deficit = m.safety_stock - ev.projected_balance ∧
      ev.qty = max m.reorder_quantity ev.deficit ∧
      m.reorder_quantity ≤ ev.qty ∧ ev.deficit ≤ ev.qty := by
  intro ev hev
  obtain ⟨m, hm, hcode, hsafe, _, hrq, hdef, hqty, _, _⟩ :=
    plan_events_ok materials formulations stock batches start eps out h ev hev
  rw [hsafe] at hdef
  rw [hrq] at hqty
  exact ⟨m, hm, hcode, hdef, hqty,
    hqty ▸ le_max_left _ _, hqty ▸ le_max_right _ _⟩

/-- Witness for C1 at the spec's scenario: the run orders
`max(440, 280) = 440` units of M, placed on day 11 for the day-21
shortfall. -/
theorem claim_C1_order_sizing_witness :
    plan [matM] [formF] [("M", 1000)] [batchB] 1 0 = .ok scenarioOut ∧
    eventM ∈ scenarioOut.events ∧
    (∃ m ∈ [matM],
      eventM.material_code = m.material_code ∧
      eventM.deficit = m.safety_stock - eventM.projected_balance ∧
      eventM.qty = max m.reorder_quantity eventM.deficit ∧
      m.reorder_quantity ≤ eventM.qty ∧ eventM.deficit ≤ eventM.qty) := by
  have h : plan [matM] [formF] [("M", 1000)] [batchB] 1 0 = .ok scenarioOut := by
    norm_num [plan, checkStock, knownCode, scaledBatches, scale, Formulation.items,
      aggregateScaled, addDayQty, addQty, runDates, stepDay, dayState, applyArrivals,
      orderForMaterial, findShortfall, hasPending, arrivalsAt, arrSum, qlookup,
      matM, formF, batchB, scenarioOut, eventM]
  have hmem : eventM ∈ scenarioOut.events := List.mem_singleton.mpr rfl
  exact ⟨h, hmem,
    claim_C1_order_sizing [matM] [formF] [("M", 1000)] [batchB] 1 0 scenarioOut h
      eventM hmem⟩

theorem qlookup_foldl_addArr (arr : List (Int × String × ℚ))
    (b : List (String × ℚ)) (c : String) :
    qlookup (arr.foldl (fun b p => addQty b p.2.1 p.2.2) b) c =
      qlookup b c + arrSum arr c := by
  induction arr generalizing b with
  | nil => simp [arrSum]
  | cons p rest ih =>
    rw [List.foldl_cons, ih, qlookup_addQty, arrSum]
    by_cases h : p.2.1 = c
    · rw [if_pos h]; ring
    · rw [if_neg h]; ring

/-- C2: arrival timing — every reorder event of a run arrives exactly
`lead_time` days after its placement date, with `lead_time` the event's
material's master value; arrivals are applied to the running balance on
their scheduled date (`applyArrivals` adds exactly the pending quantity
of that date); and the order placed for a shortfall schedules its
arrival on the event's arrival date with the event's quantity. -/
theorem claim_C2_arrival_timing (materials : List Material)
    (formulations : List Formulation) (stock : List (String × ℚ))
    (batches : List Batch) (start : Int) (eps : ℚ) (out : PlanOutput)
    (h : plan materials formulations stock batches start eps = .ok out) :
    (∀ ev ∈ out.events, ev.arrival_date = ev.date + (ev.lead_time : Int) ∧
        ∃ m ∈ materials, ev.material_code = m.material_code ∧
          ev.lead_time = m.lead_time) ∧
    (∀ (d : Int) (st : SimState) (c : String),
        qlookup (applyArrivals d st).balances c =
          qlookup st.balances c + arrivalsAt st.pending c d) ∧
    (∀ (eps' : ℚ) (d : Int) (future : List (Int × List (String × ℚ)))
        (st : SimState) (m : Material) (ev : ReorderEvent),
        (orderForMaterial eps' d future st m).events = st.events ++ [ev] →
        (orderForMaterial eps' d future st m).pending =
          st.pending ++ [(ev.arrival_date, ev.material_code, ev.qty)]) := by
  refine ⟨?_, ?_, ?_⟩
  · intro ev hev
    obtain ⟨m, hm, hcode, _, hlead, _, _, _, _, harr⟩ :=
      plan_events_ok materials formulations stock batches start eps out h ev hev
    exact ⟨harr, m, hm, hcode, hlead⟩
  · intro d st c
    show qlookup ((st.pending.filter (fun p => decide (p.1 = d))).foldl
        (fun b p => addQty b p.2.1 p.2.2) st.balances) c = _
    rw [qlookup_foldl_addArr]
    rfl
  · intro eps' d future st m ev hev
    rcases orderForMaterial_shape eps' d future st m with hsh | ⟨dneed, projBal, _, _, hsh⟩
    · rw [hsh] at hev
      have hlen := congrArg List.length hev
      rw [List.length_append, List.length_singleton] at hlen
      omega
    · rw [hsh] at hev
      have hev' : mkOrderEvent m d dneed projBal = ev := by
        have := List.append_cancel_left hev
        exact List.singleton_injective this
      rw [hsh, ← hev']
      rfl

/-- Witness for C2 at the spec's scenario: the single event is placed on
day 11 with lead time 10 and arrives on day 21 = 11 + 10. -/
theorem claim_C2_arrival_timing_witness :
    plan [matM] [formF] [("M", 1000)] [batchB] 1 0 = .ok scenarioOut ∧
    eventM ∈ scenarioOut.events ∧
    eventM.arrival_date = eventM.date + (eventM.lead_time : Int) := by
  have h : plan [matM] [formF] [("M", 1000)] [batchB] 1 0 = .ok scenarioOut := by
    norm_num [plan, checkStock, knownCode, scaledBatches, scale, Formulation.items,
      aggregateScaled, addDayQty, addQty, runDates, stepDay, dayState, applyArrivals,
      orderForMaterial, findShortfall, hasPending, arrivalsAt, arrSum, qlookup,
      matM, formF, batchB, scenarioOut, eventM]
  have hmem : eventM ∈ scenarioOut.events := List.mem_singleton.mpr rfl
  exact ⟨h, hmem,
    ((claim_C2_arrival_timing [matM] [formF] [("M", 1000)] [batchB] 1 0 scenarioOut h).1
      eventM hmem).1⟩

theorem arrSum_free (arr : List (Int × String × ℚ)) (c : String)
    (h : ∀ p ∈ arr, p.2.1 ≠ c) : arrSum arr c = 0 := by
  induction arr with
  | nil => rfl
  | cons p rest ih =>
    rw [arrSum, if_neg (h p (List.mem_cons_self _ _)),
      ih (fun x hx => h x (List.mem_cons_of_mem _ hx)), add_zero]

theorem qlookup_foldl_subQty (us : List (String × ℚ)) (b : List (String × ℚ))
    (c : String) :
    qlookup (us.foldl (fun b p => addQty b p.1 (-p.2)) b) c =
      qlookup b c - pairSum us c := by
  induction us generalizing b with
  | nil => simp [pairSum]
  | cons p rest ih =>
    rw [List.foldl_cons, ih, qlookup_addQty, pairSum]
    by_cases h : p.1 = c
    · simp only [if_pos h]; ring
    · simp only [if_neg h]; ring

theorem orderForMaterial_balances (eps : ℚ) (d : Int) (future) (st : SimState)
    (m : Material) :
    (orderForMaterial eps d future st m).balances = st.balances := by
  rcases orderForMaterial_shape eps d future st m with h | ⟨dneed, projBal, _, _, h⟩ <;>
    rw [h]

theorem foldl_order_balances (ms : List Material) (eps : ℚ) (d : Int) (future)
    (st : SimState) :
    (ms.foldl (orderForMaterial eps d future) st).balances = st.balances := by
  induction ms generalizing st with
  | nil => rfl
  | cons m rest ih => rw [List.foldl_cons, ih, orderForMaterial_balances]

theorem orderForMaterial_pendingFree (eps : ℚ) (d : Int) (future) (st : SimState)
    (m : Material) (c : String)
    (hfree : pendingFree st.pending c)
    (hev : ∀ ev ∈ (orderForMaterial eps d future st m).events, ev.material_code ≠ c) :
    pendingFree (orderForMaterial eps d future st m).pending c := by
  rcases orderForMaterial_shape eps d future st m with h | ⟨dneed, projBal, hp, hf, h⟩
  · rw [h]; exact hfree
  · rw [h]
    intro p hp'
    rcases List.mem_append.mp hp' with h1 | h1
    · exact hfree p h1
    · rw [List.mem_singleton] at h1
      subst h1
      have hmemev : mkOrderEvent m d dneed projBal ∈
          (orderForMaterial eps d future st m).events := by
        rw [h]
        exact List.mem_append_right _ (List.mem_singleton.mpr rfl)
      exact hev _ hmemev

theorem foldl_order_pendingFree (ms : List Material) (eps : ℚ) (d : Int) (future)
    (st : SimState) (c : String)
    (hfree : pendingFree st.pending c)
    (hev : ∀ ev ∈ (ms.foldl (orderForMaterial eps d future) st).events,
      ev.material_code ≠ c) :
    pendingFree (ms.foldl (orderForMaterial eps d future) st).pending c := by
  induction ms generalizing st with
  | nil => exact hfree
  | cons m rest ih =>
    rw [List.foldl_cons] at hev ⊢
    apply ih
    · apply orderForMaterial_pendingFree eps d future st m c hfree
      intro ev hev'
      obtain ⟨t, hgrow⟩ :=
        foldl_order_events_grow rest eps d future (orderForMaterial eps d future st m)
      exact hev ev (by rw [hgrow]; exact List.mem_append_left _ hev')
    · exact hev

theorem applyArrivals_free (d : Int) (st : SimState) (c : String)
    (hfree : pendingFree st.pending c) :
    qlookup (applyArrivals d st).balances c = qlookup st.balances c ∧
    pendingFree (applyArrivals d st).pending c := by
  constructor
  · show qlookup ((st.pending.filter (fun p => decide (p.1 = d))).foldl
        (fun b p => addQty b p.2.1 p.2.2) st.balances) c = _
    rw [qlookup_foldl_addArr,
      arrSum_free _ _ (fun p hp => hfree p (List.mem_of_mem_filter hp)), add_zero]
  · intro p hp
    exact hfree p (List.mem_of_mem_filter hp)

theorem stepDay_free (ms : List Material) (eps : ℚ) (st : SimState) (d : Int)
    (us : List (String × ℚ)) (future) (c : String)
    (hfree : pendingFree st.pending c)
    (hev : ∀ ev ∈ (stepDay ms eps st d us future).events, ev.material_code ≠ c) :
    qlookup (stepDay ms eps st d us future).balances c =
      qlookup st.balances c - pairSum us c ∧
    pendingFree (stepDay ms eps st d us future).pending c := by
  obtain ⟨hbal, hfree'⟩ := applyArrivals_free d st c hfree
  constructor
  · show qlookup ((ms.foldl (orderForMaterial eps d future) (dayState st d us))).balances c = _
    rw [foldl_order_balances]
    show qlookup (us.foldl (fun b p => addQty b p.1 (-p.2))
      (applyArrivals d st).balances) c = _
    rw [qlookup_foldl_subQty, hbal]
  · show pendingFree ((ms.foldl (orderForMaterial eps d future) (dayState st d us))).pending c
    apply foldl_order_pendingFree
    · exact hfree'
    · exact hev

theorem runDates_conservation (ms : List Material) (eps : ℚ)
    (reqs : List (Int × List (String × ℚ))) (st : SimState) (c : String)
    (hfree : pendingFree st.pending c)
    (hev : ∀ ev ∈ (runDates ms eps st reqs).events, ev.material_code ≠ c) :
    qlookup (runDates ms eps st reqs).balances c =
      qlookup st.balances c - totalUsage reqs c := by
  induction reqs generalizing st with
  | nil => simp [runDates, totalUsage]
  | cons r rest ih =>
    rw [runDates] at hev ⊢
    have hev1 : ∀ ev ∈ (stepDay ms eps st r.1 r.2 rest).events,
        ev.material_code ≠ c := by
      intro ev hev'
      obtain ⟨t, hgrow⟩ :=
        runDates_events_grow ms eps (stepDay ms eps st r.1 r.2 rest) rest
      exact hev ev (by rw [hgrow]; exact List.mem_append_left _ hev')
    obtain ⟨hbal, hfree'⟩ := stepDay_free ms eps st r.1 r.2 rest c hfree hev1
    rw [ih _ hfree' hev, hbal, totalUsage]
    ring

/-- C8: conservation — when a run emits no reorder event for material `c`,
its final running balance is its initial (snapshot) balance minus its
total usage across the aggregated requirement table: the balance trace is
a pure fold of subtractions. -/
theorem claim_C8_conservation (materials : List Material)
    (formulations : List Formulation) (stock : List (String × ℚ))
    (batches : List Batch) (start : Int) (eps : ℚ) (out : PlanOutput) (c : String)
    (h : plan materials formulations stock batches start eps = .ok out)
    (hnoev : ∀ ev ∈ out.events, ev.material_code ≠ c) :
    qlookup out.final_balances c =
      qlookup stock c - totalUsage out.material_requirements c := by
  unfold plan at h
  cases hc : checkStock materials stock with
  | error e => rw [hc] at h; cases h
  | ok u =>
    cases u
    rw [hc] at h
    cases hs : scaledBatches materials formulations batches with
    | error e => rw [hs] at h; cases h
    | ok items =>
      rw [hs] at h
      injection h with h
      subst h
      have hrun := runDates_conservation materials eps
        ((start, []) :: aggregateScaled items) ⟨stock, [], []⟩ c
        (fun p hp => absurd hp (List.not_mem_nil p)) hnoev
      rw [hrun]
      show _ = qlookup stock c - totalUsage (aggregateScaled items) c
      rw [totalUsage, pairSum]
      ring

/-- Witness for C8 at the spec's no-shortfall scenario: usage 50 from a
stock of 1000 yields no events and a final balance of 950 = 1000 - 50. -/
theorem claim_C8_conservation_witness :
    plan [matM] [formF2] [("M", 1000)] [batchB2] 1 0 = .ok scenario2Out ∧
    (∀ ev ∈ scenario2Out.events, ev.material_code ≠ "M") ∧
    qlookup scenario2Out.final_balances "M" =
      qlookup [("M", 1000)] "M" - totalUsage scenario2Out.material_requirements "M" := by
  have h : plan [matM] [formF2] [("M", 1000)] [batchB2] 1 0 = .ok scenario2Out := by
    norm_num [plan, checkStock, knownCode, scaledBatches, scale, Formulation.items,
      aggregateScaled, addDayQty, addQty, runDates, stepDay, dayState, applyArrivals,
      orderForMaterial, findShortfall, hasPending, arrivalsAt, arrSum, qlookup,
      matM, formF2, batchB2, scenario2Out]
  have hnoev : ∀ ev ∈ scenario2Out.events, ev.material_code ≠ "M" := by
    intro ev hev
    cases hev
  exact ⟨h, hnoev,
    claim_C8_conservation [matM] [formF2] [("M", 1000)] [batchB2] 1 0 scenario2Out "M"
      h hnoev⟩

theorem hasPending_false_iff (p : List (Int × String × ℚ)) (c : String) :
    hasPending p c = false ↔ ∀ q ∈ p, q.2.1 ≠ c := by
  induction p with
  | nil => simp [hasPending]
  | cons a rest ih =>
    rw [show hasPending (a :: rest) c = (decide (a.2.1 = c) || hasPending rest c) from rfl,
      Bool.or_eq_false_iff]
    constructor
    · rintro ⟨h1, h2⟩ q hq
      rcases List.mem_cons.mp hq with rfl | hq'
      · exact of_decide_eq_false h1
      · exact (ih.mp h2) q hq'
    · intro h
      exact ⟨decide_eq_false (h a (List.mem_cons_self _ _)),
        ih.mpr (fun q hq => h q (List.mem_cons_of_mem _ hq))⟩

theorem pendingCodes_append_one (p : List (Int × String × ℚ)) (x : Int × String × ℚ) :
    pendingCodes (p ++ [x]) = pendingCodes p ++ [x.2.1] := by
  simp [pendingCodes]

theorem orderForMaterial_pendingCodes_nodup (eps : ℚ) (d : Int) (future)
    (st : SimState) (m : Material)
    (h : (pendingCodes st.pending).Nodup) :
    (pendingCodes (orderForMaterial eps d future st m).pending).Nodup := by
  rcases orderForMaterial_shape eps d future st m with hs | ⟨dneed, projBal, hp, hf, hs⟩
  · rw [hs]; exact h
  · rw [hs]
    show (pendingCodes (st.pending ++ [mkOrderPending m dneed projBal])).Nodup
    rw [pendingCodes_append_one, List.nodup_append]
    have hnot : m.material_code ∉ pendingCodes st.pending := by
      intro hc
      rcases List.mem_map.mp hc with ⟨q, hq, hqc⟩
      exact ((hasPending_false_iff _ _).mp hp q hq) hqc
    refine ⟨h, List.nodup_singleton _, ?_⟩
    intro a ha hb
    rw [List.mem_singleton] at hb
    subst hb
    exact hnot ha

theorem applyArrivals_pendingCodes_nodup (d : Int) (st : SimState)
    (h : (pendingCodes st.pending).Nodup) :
    (pendingCodes (applyArrivals d st).pending).Nodup := by
  unfold pendingCodes at h ⊢
  have hsub : List.Sublist (applyArrivals d st).pending st.pending :=
    List.filter_sublist _
  exact h.sublist (hsub.map (fun p => p.2.1))

theorem foldl_order_pendingCodes_nodup (ms : List Material) (eps : ℚ) (d : Int)
    (future) (st : SimState)
    (h : (pendingCodes st.pending).Nodup) :
    (pendingCodes (ms.foldl (orderForMaterial eps d future) st).pending).Nodup := by
  induction ms generalizing st with
  | nil => exact h
  | cons m rest ih =>
    rw [List.foldl_cons]
    exact ih _ (orderForMaterial_pendingCodes_nodup eps d future st m h)

theorem stepDay_pendingCodes_nodup (ms : List Material) (eps : ℚ) (st : SimState)
    (d : Int) (us : List (String × ℚ)) (future)
    (h : (pendingCodes st.pending).Nodup) :
    (pendingCodes (stepDay ms eps st d us future).pending).Nodup :=
  foldl_order_pendingCodes_nodup ms eps d future (dayState st d us)
    (applyArrivals_pendingCodes_nodup d st h)

theorem runDates_pendingCodes_nodup (ms : List Material) (eps : ℚ) (st : SimState)
    (reqs : List (Int × List (String × ℚ)))
    (h : (pendingCodes st.pending).Nodup) :
    (pendingCodes (runDates ms eps st reqs).pending).Nodup := by
  induction reqs generalizing st with
  | nil => exact h
  | cons r rest ih =>
    rw [runDates]
    exact ih _ (stepDay_pendingCodes_nodup ms eps st r.1 r.2 rest h)

/-- C4: at most one open reorder per material — (1) while a material's
previous reorder is still pending (placed but not yet arrived),
`orderForMaterial` places no additional order for it: the state is
returned unchanged; (2) consequently a whole run started with a
duplicate-free pending queue keeps, at its end, at most one open reorder
per material code (arrivals remove entries, so a later order for the same
material can only be queued after the earlier one arrived). -/
theorem claim_C4_one_open_reorder :
    (∀ (eps : ℚ) (d : Int) (future : List (Int × List (String × ℚ)))
        (st : SimState) (m : Material),
        hasPending st.pending m.material_code = true →
        orderForMaterial eps d future st m = st) ∧
    (∀ (ms : List Material) (eps : ℚ) (st : SimState)
        (reqs : List (Int × List (String × ℚ))),
        (pendingCodes st.pending).Nodup →
        (pendingCodes (runDates ms eps st reqs).pending).Nodup) := by
  constructor
  · intro eps d future st m h
    simp [orderForMaterial, h]
  · intro ms eps st reqs h
    exact runDates_pendingCodes_nodup ms eps st reqs h

/-- Witness for C4: a state already holding a pending reorder for M is
left unchanged by the lookahead for M, and the scenario run keeps its
pending queue duplicate-free. -/
theorem claim_C4_one_open_reorder_witness :
    (hasPending [(21, "M", 5)] matM.material_code = true ∧
      orderForMaterial 0 1 [(21, [("M", 780)])]
          ⟨[("M", 100)], [(21, "M", 5)], []⟩ matM =
        ⟨[("M", 100)], [(21, "M", 5)], []⟩) ∧
    ((pendingCodes ([] : List (Int × String × ℚ))).Nodup ∧
      (pendingCodes (runDates [matM] 0 ⟨[("M", 1000)], [], []⟩
        [(1, []), (21, [("M", 780)])]).pending).Nodup) := by
  have h1 : hasPending [(21, "M", 5)] matM.material_code = true := by
    simp [hasPending, matM]
  have h2 : (pendingCodes ([] : List (Int × String × ℚ))).Nodup := List.nodup_nil
  exact ⟨⟨h1, claim_C4_one_open_reorder.1 0 1 [(21, [("M", 780)])]
      ⟨[("M", 100)], [(21, "M", 5)], []⟩ matM h1⟩,
    ⟨h2, claim_C4_one_open_reorder.2 [matM] 0 ⟨[("M", 1000)], [], []⟩
      [(1, []), (21, [("M", 780)])] h2⟩⟩

theorem tableLB_of_lt (x y : Int) (tbl : List (Int × List (String × ℚ)))
    (hxy : y < x) (h : tableLB x tbl) : tableLB y tbl := by
  induction tbl with
  | nil => trivial
  | cons r rest ih => exact ⟨lt_trans hxy h.1, ih h.2⟩

theorem tableLB_mem (x : Int) (tbl : List (Int × List (String × ℚ)))
    (h : tableLB x tbl) : ∀ r ∈ tbl, x < r.1 := by
  induction tbl with
  | nil => intro r hr; cases hr
  | cons a rest ih =>
    intro r hr
    rcases List.mem_cons.mp hr with h1 | h1
    · subst h1; exact h.1
    · exact ih h.2 r h1

theorem tableLB_addDayQty (x d : Int) (k : String) (q : ℚ)
    (tbl : List (Int × List (String × ℚ)))
    (h : tableLB x tbl) (hxd : x < d) : tableLB x (addDayQty tbl d k q) := by
  induction tbl with
  | nil => exact ⟨hxd, trivial⟩
  | cons r rest ih =>
    obtain ⟨hxr, hrest⟩ := h
    by_cases h1 : d = r.1
    · simp only [addDayQty, if_pos h1]
      exact ⟨hxr, hrest⟩
    · by_cases h2 : d < r.1
      · simp only [addDayQty, if_neg h1, if_pos h2]
        exact ⟨hxd, hxr, hrest⟩
      · simp only [addDayQty, if_neg h1, if_neg h2]
        exact ⟨hxr, ih hrest⟩

theorem addDayQty_sorted (tbl : List (Int × List (String × ℚ))) (d : Int)
    (k : String) (q : ℚ) (h : datesSorted tbl) :
    datesSorted (addDayQty tbl d k q) := by
  induction tbl with
  | nil => exact ⟨trivial, trivial⟩
  | cons r rest ih =>
    obtain ⟨hlb, hsorted⟩ := h
    by_cases h1 : d = r.1
    · simp only [addDayQty, if_pos h1]
      exact ⟨hlb, hsorted⟩
    · by_cases h2 : d < r.1
      · simp only [addDayQty, if_neg h1, if_pos h2]
        exact ⟨⟨h2, tableLB_of_lt r.1 d rest h2 hlb⟩, hlb, hsorted⟩
      · have h3 : r.1 < d := lt_of_le_of_ne (not_lt.mp h2) (fun hh => h1 hh.symm)
        simp only [addDayQty, if_neg h1, if_neg h2]
        exact ⟨tableLB_addDayQty r.1 d k q rest hlb h3, ih hsorted⟩

theorem tableKeysOk_addDayQty (tbl : List (Int × List (String × ℚ))) (d : Int)
    (k : String) (q : ℚ) (h : tableKeysOk tbl) :
    tableKeysOk (addDayQty tbl d k q) := by
  induction tbl with
  | nil =>
    intro r hr
    simp only [addDayQty, List.mem_singleton] at hr
    subst hr
    exact ⟨fun p hp => absurd hp (List.not_mem_nil p), trivial⟩
  | cons r rest ih =>
    have hr2 := h r (List.mem_cons_self _ _)
    have hrest : tableKeysOk rest := fun x hx => h x (List.mem_cons_of_mem _ hx)
    by_cases h1 : d = r.1
    · simp only [addDayQty, if_pos h1]
      intro x hx
      rcases List.mem_cons.mp hx with h2 | h2
      · subst h2; exact noDupKeys_addQty _ _ _ hr2
      · exact hrest x h2
    · by_cases h2 : d < r.1
      · simp only [addDayQty, if_neg h1, if_pos h2]
        intro x hx
        rcases List.mem_cons.mp hx with h3 | h3
        · subst h3; exact ⟨fun p hp => absurd hp (List.not_mem_nil p), trivial⟩
        · exact h x h3
      · simp only [addDayQty, if_neg h1, if_neg h2]
        intro x hx
        rcases List.mem_cons.mp hx with h3 | h3
        · subst h3; exact hr2
        · exact ih hrest x h3

theorem tableLookup_zero_of_ne (tbl : List (Int × List (String × ℚ))) (d : Int)
    (m : String) (h : ∀ r ∈ tbl, r.1 ≠ d) : tableLookup tbl d m = 0 := by
  induction tbl with
  | nil => rfl
  | cons r rest ih =>
    rw [tableLookup, if_neg (h r (List.mem_cons_self _ _))]
    exact ih (fun x hx => h x (List.mem_cons_of_mem _ hx))

theorem tableLookup_addDayQty (tbl : List (Int × List (String × ℚ))) (d : Int)
    (k : String) (q : ℚ) (d' : Int) (m : String) (hs : datesSorted tbl) :
    tableLookup (addDayQty tbl d k q) d' m =
      tableLookup tbl d' m + (if d = d' ∧ k = m then q else 0) := by
  induction tbl with
  | nil =>
    by_cases h1 : d = d' <;> by_cases h2 : k = m <;>
      simp [addDayQty, tableLookup, qlookup, h1, h2]
  | cons r rest ih =>
    obtain ⟨hlb, hsorted⟩ := hs
    by_cases h1 : d = r.1
    · simp only [addDayQty, if_pos h1]
      by_cases h2 : r.1 = d'
      · rw [tableLookup, if_pos h2, tableLookup, if_pos h2, qlookup_addQty]
        have hdd' : d = d' := h1.trans h2
        by_cases h3 : k = m
        · rw [if_pos h3, if_pos (And.intro hdd' h3)]
        · rw [if_neg h3, if_neg (fun hc => h3 hc.2)]
      · rw [tableLookup, if_neg h2, tableLookup, if_neg h2]
        have hne : ¬ (d = d' ∧ k = m) := fun hc => h2 (h1.symm.trans hc.1)
        rw [if_neg hne, add_zero]
    · by_cases h2 : d < r.1
      · simp only [addDayQty, if_neg h1, if_pos h2]
        by_cases h3 : d = d'
        · rw [tableLookup, if_pos h3]
          have hzero : tableLookup (r :: rest) d' m = 0 := by
            apply tableLookup_zero_of_ne
            intro x hx
            rcases List.mem_cons.mp hx with h4 | h4
            · subst h4; intro hc; omega
            · have hlt := tableLB_mem r.1 rest hlb x h4
              intro hc; omega
          rw [hzero, zero_add]
          by_cases h4 : k = m
          · rw [qlookup, if_pos h4, if_pos (And.intro h3 h4)]
          · rw [qlookup, if_neg h4, if_neg (fun hc => h4 hc.2), qlookup]
        · have hand : ¬ (d = d' ∧ k = m) := fun hc => h3 hc.1
          simp only [tableLookup, if_neg h3, if_neg hand, add_zero]
      · have h3 : r.1 < d := lt_of_le_of_ne (not_lt.mp h2) (fun hh => h1 hh.symm)
        simp only [addDayQty, if_neg h1, if_neg h2]
        by_cases h4 : r.1 = d'
        · rw [tableLookup, if_pos h4, tableLookup, if_pos h4]
          have hne : ¬ (d = d' ∧ k = m) := fun hc => h1 (hc.1.trans h4.symm)
          rw [if_neg hne, add_zero]
        · rw [tableLookup, if_neg h4, tableLookup, if_neg h4]
          exact ih hsorted

theorem foldl_pairs_sorted (ps : List (String × ℚ))
    (tbl : List (Int × List (String × ℚ))) (d0 : Int) (h : datesSorted tbl) :
    datesSorted (ps.foldl (fun t p => addDayQty t d0 p.1 p.2) tbl) := by
  induction ps generalizing tbl with
  | nil => exact h
  | cons p ps ih =>
    rw [List.foldl_cons]
    exact ih _ (addDayQty_sorted _ _ _ _ h)

theorem foldl_pairs_keysOk (ps : List (String × ℚ))
    (tbl : List (Int × List (String × ℚ))) (d0 : Int) (h : tableKeysOk tbl) :
    tableKeysOk (ps.foldl (fun t p => addDayQty t d0 p.1 p.2) tbl) := by
  induction ps generalizing tbl with
  | nil => exact h
  | cons p ps ih =>
    rw [List.foldl_cons]
    exact ih _ (tableKeysOk_addDayQty _ _ _ _ h)

theorem tableLookup_foldl_pairs (ps : List (String × ℚ))
    (tbl : List (Int × List (String × ℚ))) (d0 d : Int) (m : String)
    (hs : datesSorted tbl) :
    tableLookup (ps.foldl (fun t p => addDayQty t d0 p.1 p.2) tbl) d m =
      tableLookup tbl d m + (if d0 = d then pairSum ps m else 0) := by
  induction ps generalizing tbl with
  | nil => simp [pairSum]
  | cons p ps ih =>
    rw [List.foldl_cons, ih _ (addDayQty_sorted _ _ _ _ hs),
      tableLookup_addDayQty _ _ _ _ _ _ hs, pairSum]
    by_cases h1 : d0 = d
    · by_cases h2 : p.1 = m
      · simp only [if_pos (And.intro h1 h2), if_pos h1, if_pos h2]; ring
      · simp only [if_neg (fun hc => h2 (And.right hc)), if_pos h1, if_neg h2]; ring
    · simp only [if_neg (fun hc => h1 (And.left hc)), if_neg h1]; ring

theorem aggregate_aux_sorted (items : List (Int × List (String × ℚ)))
    (tbl : List (Int × List (String × ℚ))) (h : datesSorted tbl) :
    datesSorted (items.foldl
      (fun tbl it => it.2.foldl (fun t p => addDayQty t it.1 p.1 p.2) tbl) tbl) := by
  induction items generalizing tbl with
  | nil => exact h
  | cons it items ih =>
    rw [List.foldl_cons]
    exact ih _ (foldl_pairs_sorted _ _ _ h)

theorem aggregate_aux_keysOk (items : List (Int × List (String × ℚ)))
    (tbl : List (Int × List (String × ℚ))) (h : tableKeysOk tbl) :
    tableKeysOk (items.foldl
      (fun tbl it => it.2.foldl (fun t p => addDayQty t it.1 p.1 p.2) tbl) tbl) := by
  induction items generalizing tbl with
  | nil => exact h
  | cons it items ih =>
    rw [List.foldl_cons]
    exact ih _ (foldl_pairs_keysOk _ _ _ h)

theorem tableLookup_aggregate_aux (items : List (Int × List (String × ℚ)))
    (tbl : List (Int × List (String × ℚ))) (d : Int) (m : String)
    (hs : datesSorted tbl) :
    tableLookup (items.foldl
      (fun tbl it => it.2.foldl (fun t p => addDayQty t it.1 p.1 p.2) tbl) tbl) d m =
      tableLookup tbl d m + totalAt items d m := by
  induction items generalizing tbl with
  | nil => simp [totalAt]
  | cons it items ih =>
    rw [List.foldl_cons, ih _ (foldl_pairs_sorted _ _ _ hs),
      tableLookup_foldl_pairs _ _ _ _ _ hs, totalAt]
    ring

/-- C7: the daily requirement aggregation is additive per (date,
material) — the aggregated table's cell for `(d, m)` is the sum of the
scaled usage of `m` over all input items dated `d`, and the table is
well-formed: one row per date and one cell per material inside each row,
so two batches on the same date consuming the same material produce a
single aggregated row, not two. -/
theorem claim_C7_additive_aggregation :
    (∀ (items : List (Int × List (String × ℚ))) (d : Int) (m : String),
        tableLookup (aggregateScaled items) d m = totalAt items d m) ∧
    (∀ items : List (Int × List (String × ℚ)), tableWF (aggregateScaled items)) := by
  constructor
  · intro items d m
    have h := tableLookup_aggregate_aux items [] d m trivial
    rw [show tableLookup ([] : List (Int × List (String × ℚ))) d m = 0 from rfl,
      zero_add] at h
    exact h
  · intro items
    exact ⟨aggregate_aux_sorted items [] trivial,
      aggregate_aux_keysOk items [] (fun r hr => absurd hr (List.not_mem_nil r))⟩

/-- C9: `plan` is deterministic and idempotent — it is a pure function of
its inputs, so two runs on identical inputs return identical outputs:
the same daily requirements, the same reorder events in the same order,
and the same balances. -/
theorem claim_C9_deterministic (materials : List Material)
    (formulations : List Formulation) (stock : List (String × ℚ))
    (batches : List Batch) (start : Int) (eps : ℚ)
    (out1 out2 : Except PlanError PlanOutput)
    (h1 : plan materials formulations stock batches start eps = out1)
    (h2 : plan materials formulations stock batches start eps = out2) :
    out1 = out2 := by
  rw [← h1, ← h2]

/-- Witness for C9: running the scenario twice returns the same output. -/
theorem claim_C9_deterministic_witness :
    plan [matM] [formF] [("M", 1000)] [batchB] 1 0 = .ok scenarioOut ∧
    (Except.ok scenarioOut : Except PlanError PlanOutput) = .ok scenarioOut := by
  have h : plan [matM] [formF] [("M", 1000)] [batchB] 1 0 = .ok scenarioOut := by
    norm_num [plan, checkStock, knownCode, scaledBatches, scale, Formulation.items,
      aggregateScaled, addDayQty, addQty, runDates, stepDay, dayState, applyArrivals,
      orderForMaterial, findShortfall, hasPending, arrivalsAt, arrSum, qlookup,
      matM, formF, batchB, scenarioOut, eventM]
  exact ⟨h, claim_C9_deterministic [matM] [formF] [("M", 1000)] [batchB] 1 0
    (.ok scenarioOut) (.ok scenarioOut) h h⟩

theorem populate_foldl_general (rs : List UIDateReorders)
    (acc : List PurchaseActionRow) :
    rs.foldl (fun rows r =>
        (rows ++ [dateOnlyRow r.date]) ++ r.reorders_placed.map (placedRow r.date)) acc =
      acc ++ purchaseRowsSpec rs := by
  induction rs generalizing acc with
  | nil => simp [purchaseRowsSpec]
  | cons r rest ih =>
    rw [List.foldl_cons, ih, purchaseRowsSpec]
    simp [List.append_assoc]

theorem purchaseRowsSpec_dropUnused (rs : List UIDateReorders) :
    purchaseRowsSpec (rs.map dropUnusedArrays) = purchaseRowsSpec rs := by
  induction rs with
  | nil => rfl
  | cons r rest ih =>
    rw [List.map_cons, purchaseRowsSpec, purchaseRowsSpec, ih]
    rfl

/-- C10: for every date entry of the engine's `reorders` output,
`populate_tables` inserts one row carrying only the date (material code,
quantity and reason unset) followed by one row per `reorders_placed`
element; and the inserted rows do not depend on `reorders_arrived` or
`production_completed`, whose elements are never inserted. -/
theorem claim_C10_purchase_action_rows :
    (∀ rs : List UIDateReorders, populatePurchaseActions rs = purchaseRowsSpec rs) ∧
    (∀ rs : List UIDateReorders,
        populatePurchaseActions (rs.map dropUnusedArrays) =
          populatePurchaseActions rs) := by
  constructor
  · intro rs
    rw [populatePurchaseActions, populate_foldl_general, List.nil_append]
  · intro rs
    rw [populatePurchaseActions, populatePurchaseActions, populate_foldl_general,
      populate_foldl_general, List.nil_append, List.nil_append]
    exact purchaseRowsSpec_dropUnused rs

end PurchasePlanner
